import Mathlib

/-!
Verification of the text-extraction and template-writing pipeline of
`app.py` (electricity-bill → quote-template filler).

The Python source is shallowly embedded:

* strings are modelled as `String` / `List Char` (ASCII character classes:
  the regex classes `\d`, `\w`, `\s` are modelled by their ASCII subsets);
* numeric values produced by the `float` builtin are modelled exactly as
  unsigned decimal numbers `DecVal` (a mantissa together with a decimal
  scale); comparisons are exact rational comparisons, and `str(float(...))`
  is modelled as the plain shortest decimal rendering of that value;
* code that can raise (`float`, `max`, the writer's shape check) is
  embedded in `Except String`;
* the spreadsheet is modelled as a total assignment of Python values to
  (row, column) coordinates.
-/

/-- Model of the regex class `\d` (ASCII). -/
def pyIsDigit (c : Char) : Bool :=
  c = '0' || c = '1' || c = '2' || c = '3' || c = '4' ||
  c = '5' || c = '6' || c = '7' || c = '8' || c = '9'

/-- Model of the regex / `str.strip` whitespace class `\s` (ASCII). -/
def isPySpace (c : Char) : Bool :=
  c = ' ' || c = '\t' || c = '\n' || c = '\r' || c = '\x0b' || c = '\x0c'

/-- Model of the regex class `\w` (ASCII): letters, digits, underscore. -/
def isWordChar (c : Char) : Bool :=
  ('a' ≤ c && c ≤ 'z') || ('A' ≤ c && c ≤ 'Z') || pyIsDigit c || c = '_'

/-- Strip characters satisfying `p` from both ends (Python `str.strip`). -/
def stripChars (p : Char → Bool) (cs : List Char) : List Char :=
  ((cs.dropWhile p).reverse.dropWhile p).reverse

/-- Characters at which Python `str.splitlines` breaks lines. -/
def isLineBreak (c : Char) : Bool :=
  c = '\n' || c = '\r' || c = '\x0b' || c = '\x0c' ||
  c = '\x1c' || c = '\x1d' || c = '\x1e' || c = '\u0085' ||
  c = '\u2028' || c = '\u2029'

/-- Python `str.splitlines` (the final segment is kept only if non-empty). -/
def splitlinesAux : List Char → List Char → List (List Char)
  | acc, [] => if acc.isEmpty then [] else [acc.reverse]
  | acc, '\r' :: '\n' :: rest => acc.reverse :: splitlinesAux [] rest
  | acc, c :: rest =>
      if isLineBreak c then acc.reverse :: splitlinesAux [] rest
      else splitlinesAux (c :: acc) rest

def splitlines (cs : List Char) : List (List Char) := splitlinesAux [] cs

/-- Try to consume the literal `w` at the front of `cs`; return the rest. -/
def dropLit : List Char → List Char → Option (List Char)
  | [], cs => some cs
  | _ :: _, [] => none
  | w :: ws, c :: cs => if c = w then dropLit ws cs else none

/-- A word boundary `\b` holds after the match if the next character
(if any) is not a word character (all vocabulary words end in a word
character). -/
def endBoundary : List Char → Bool
  | [] => true
  | c :: _ => !isWordChar c

/-- Match one literal alternative at this position, requiring `\b` after it. -/
def matchLitWordEnd (w : List Char) (rest : List Char) : Bool :=
  match dropLit w rest with
  | some rest2 => endBoundary rest2
  | none => false

/-- A word boundary `\b` holds before the match if the previous character
(if any) is not a word character (all vocabulary words start with a word
character). -/
def beginBoundary : Option Char → Bool
  | none => true
  | some c => !isWordChar c

/-- Generic `re.search(r"\b(w1|w2|...)\b", line, re.IGNORECASE)` truth value
for a vocabulary of literal lowercase alternatives; `line` is lowercased
before scanning. -/
def wordsSearchAux (ws : List (List Char)) : Option Char → List Char → Bool
  | prev, rest =>
      (beginBoundary prev && ws.any (fun w => matchLitWordEnd w rest)) ||
      match rest with
      | [] => false
      | c :: rest2 => wordsSearchAux ws (some c) rest2

def wordsSearch (ws : List (List Char)) (cs : List Char) : Bool :=
  wordsSearchAux ws none (cs.map Char.toLower)

/-- The alternative `off[-\s]?peak` of `COMMON_KEYWORDS`: `off`, then an
optional hyphen or whitespace character, then `peak`, then `\b`. -/
def matchOffPeak (rest : List Char) : Bool :=
  match dropLit ['o', 'f', 'f'] rest with
  | none => false
  | some r2 =>
      (match r2 with
       | c :: r3 => (c = '-' || isPySpace c) && matchLitWordEnd ['p', 'e', 'a', 'k'] r3
       | [] => false) ||
      matchLitWordEnd ['p', 'e', 'a', 'k'] r2

/-- The literal alternatives of `COMMON_KEYWORDS` (all except `off[-\s]?peak`). -/
def commonKeywordLits : List (List Char) :=
  [['p','e','a','k'], ['s','t','a','n','d','i','n','g'], ['s','u','p','p','l','y'],
   ['d','e','m','a','n','d'], ['s','o','l','a','r'], ['f','e','e','d'],
   ['c','o','n','c','e','s','s','i','o','n'], ['u','s','a','g','e'], ['k','w','h'],
   ['f','i','x','e','d'], ['d','a','i','l','y'], ['a','n','n','u','a','l']]

/-- `re.search(COMMON_KEYWORDS, line, re.IGNORECASE)` truth value. -/
def keywordSearchAux : Option Char → List Char → Bool
  | prev, rest =>
      (beginBoundary prev &&
        (commonKeywordLits.any (fun w => matchLitWordEnd w rest) || matchOffPeak rest)) ||
      match rest with
      | [] => false
      | c :: rest2 => keywordSearchAux (some c) rest2

def keywordSearch (cs : List Char) : Bool := keywordSearchAux none (cs.map Char.toLower)

/-- `re.search(r"\d", line)` truth value. -/
def hasDigit (cs : List Char) : Bool := cs.any pyIsDigit

/-- Consume the maximal run of `[\d,]` characters. -/
def digitCommaSpan (cs : List Char) : List Char × List Char :=
  cs.span (fun c => pyIsDigit c || c = ',')

/-- Consume the optional `(?:\.\d+)?` suffix of a numeric token (greedy). -/
def fracSpan (cs : List Char) : List Char × List Char :=
  match cs with
  | '.' :: r2 =>
      match r2.span pyIsDigit with
      | ([], _) => ([], cs)
      | (ds, r3) => ('.' :: ds, r3)
  | _ => ([], cs)

/-- Match the token pattern `\$?[\d,]+(?:\.\d+)?` at this position.
Returns the matched characters and the remaining suffix. -/
def numTokenAt : List Char → Option (List Char × List Char)
  | [] => none
  | '$' :: rest =>
      match digitCommaSpan rest with
      | ([], _) => none
      | (run, rest2) =>
          match fracSpan rest2 with
          | (fr, rest3) => some ('$' :: (run ++ fr), rest3)
  | c :: rest =>
      if pyIsDigit c || c = ',' then
        match digitCommaSpan rest with
        | (run, rest2) =>
            match fracSpan rest2 with
            | (fr, rest3) => some (c :: (run ++ fr), rest3)
      else none

/-- `re.findall(r"\$?[\d,]+(?:\.\d+)?", s)`: scan left to right, emitting
each non-overlapping match. -/
def findNumTokensAux : Nat → List Char → List (List Char)
  | 0, _ => []
  | _, [] => []
  | fuel + 1, c :: r =>
      match numTokenAt (c :: r) with
      | some (tok, rest) => tok :: findNumTokensAux fuel rest
      | none => findNumTokensAux fuel r

/-- `extract_numbers_from_string`: find all money/unit-looking tokens and
strip `$` and `,` from each. -/
def extract_numbers_from_string (s : String) : List String :=
  (findNumTokensAux s.data.length s.data).map
    (fun t => String.mk (t.filter (fun c => c != '$' && c != ',')))

/-- `re.sub(r"\$?[\d,]+(?:\.\d+)?", "", line)`: same scan, removing matches. -/
def subNumsAux : Nat → List Char → List Char
  | 0, _ => []
  | _, [] => []
  | fuel + 1, c :: r =>
      match numTokenAt (c :: r) with
      | some (_, rest) => subNumsAux fuel rest
      | none => c :: subNumsAux fuel r

def subNums (cs : List Char) : List Char := subNumsAux cs.length cs

/-- `re.sub(r"\d+\s*%", "", s)`: maximal digit run, maximal whitespace run,
then a literal percent sign. -/
def subPctAux : Nat → List Char → List Char
  | 0, _ => []
  | _, [] => []
  | fuel + 1, c :: r =>
      if pyIsDigit c then
        match (c :: r).span pyIsDigit with
        | (_, r2) =>
            match r2.span isPySpace with
            | (_, r3) =>
                match r3 with
                | '%' :: r4 => subPctAux fuel r4
                | _ => c :: subPctAux fuel r
      else c :: subPctAux fuel r

def subPct (cs : List Char) : List Char := subPctAux cs.length cs

/-- Attempt the tail `\s*\%` of `PCT_RE` after the numeric part `acc`. -/
def pctTailSpaces (acc : List Char) (rest : List Char) : Option (List Char) :=
  match rest.span isPySpace with
  | (sp, r2) =>
      match r2 with
      | '%' :: _ => some (acc ++ sp ++ ['%'])
      | _ => none

/-- Attempt `(?:\.\d+)?\s*\%` after the digits `pref` (fraction first, as the
regex engine prefers the greedy option). -/
def pctTail (pref : List Char) (rest : List Char) : Option (List Char) :=
  match rest with
  | '.' :: r2 =>
      (match r2.span pyIsDigit with
       | ([], _) => Option.none
       | (ds, r3) => pctTailSpaces (pref ++ '.' :: ds) r3).orElse
        (fun _ => pctTailSpaces pref rest)
  | _ => pctTailSpaces pref rest

/-- Match `PCT_RE = (\d{1,2}(?:\.\d+)?\s*\%)` at this position (two digits
preferred over one, as the regex engine does). -/
def pctAt : List Char → Option (List Char)
  | [] => none
  | d1 :: rest1 =>
      if pyIsDigit d1 then
        (match rest1 with
         | d2 :: rest2 =>
             if pyIsDigit d2 then pctTail [d1, d2] rest2 else Option.none
         | [] => Option.none).orElse
          (fun _ => pctTail [d1] rest1)
      else none

/-- `re.search(PCT_RE, line)`: leftmost match, returning the matched text. -/
def findPct : List Char → Option (List Char)
  | [] => none
  | c :: r =>
      match pctAt (c :: r) with
      | some g => some g
      | none => findPct r

/-- Numeric value of a decimal digit character (only used on digits). -/
def charDigit (c : Char) : Nat :=
  match c with
  | '0' => 0 | '1' => 1 | '2' => 2 | '3' => 3 | '4' => 4
  | '5' => 5 | '6' => 6 | '7' => 7 | '8' => 8 | '9' => 9
  | _ => 0

/-- Decimal digit character of a value below ten. -/
def digitChar (n : Nat) : Char :=
  match n with
  | 0 => '0' | 1 => '1' | 2 => '2' | 3 => '3' | 4 => '4'
  | 5 => '5' | 6 => '6' | 7 => '7' | 8 => '8' | _ => '9'

/-- Numeric value of a string of decimal digit characters. -/
def ofDecChars (cs : List Char) : Nat := cs.foldl (fun a c => 10 * a + charDigit c) 0

/-- Decimal digit characters of a natural number, most significant first
(fuel-driven so that it reduces definitionally). -/
def toDecCharsAux : Nat → Nat → List Char
  | 0, _ => []
  | fuel + 1, n =>
      if n < 10 then [digitChar n]
      else toDecCharsAux fuel (n / 10) ++ [digitChar (n % 10)]

def toDecChars (n : Nat) : List Char := toDecCharsAux (n + 1) n

/-- The exact value of a Python float produced by parsing an unsigned
decimal literal: `mant / 10 ^ scale`.  Values in this pipeline are exact
decimals, so the float is modelled by its exact rational value. -/
structure DecVal where
  mant : Nat
  scale : Nat
deriving DecidableEq

/-- The rational value of a `DecVal`. -/
def DecVal.toRat (v : DecVal) : ℚ := (v.mant : ℚ) / 10 ^ v.scale

/-- Exact comparison of two decimal values (cross multiplication). -/
def ltB (a b : DecVal) : Bool := a.mant * 10 ^ b.scale < b.mant * 10 ^ a.scale

/-- Value of the literal split at the (first) decimal point: `ip` is the
part before it, `rest` starts at the point (or is empty). -/
def parsePyFloatSplit (ip : List Char) : List Char → Option DecVal
  | [] => if !ip.isEmpty && ip.all pyIsDigit then some ⟨ofDecChars ip, 0⟩ else none
  | c :: fp =>
      if c = '.' then
        if ip.all pyIsDigit && fp.all pyIsDigit && (!ip.isEmpty || !fp.isEmpty) then
          some ⟨ofDecChars ip * 10 ^ fp.length + ofDecChars fp, fp.length⟩
        else none
      else none

/-- Model of the `float` builtin on the unsigned plain-decimal literals this
pipeline produces (`digits`, `digits.digits`, `.digits`, `digits.`), after
Python's whitespace stripping.  Other float syntax (signs, exponents, `inf`,
`nan`, underscores) is never produced by the extractors and is not modelled;
parsing it here fails, as it is out of the modelled grammar. -/
def parsePyFloatChars (cs0 : List Char) : Option DecVal :=
  parsePyFloatSplit ((stripChars isPySpace cs0).takeWhile (fun c => c != '.'))
    ((stripChars isPySpace cs0).dropWhile (fun c => c != '.'))

def parsePyFloat (s : String) : Option DecVal := parsePyFloatChars s.data

def stripTrailingZeros (cs : List Char) : List Char :=
  (cs.reverse.dropWhile (fun c => c = '0')).reverse

def padLeftZeros (k : Nat) (cs : List Char) : List Char :=
  List.replicate (k - cs.length) '0' ++ cs

/-- Model of `str(float)` for the unsigned exact-decimal values of this
pipeline: integer part, a dot, and the fractional digits without trailing
zeros (`0` when the value is integral) — e.g. `3 ↦ "3.0"`,
`1231/1000 ↦ "1.231"`.  Python's scientific notation for magnitudes outside
`[1e-4, 1e16)` is outside the modelled range. -/
def renderFloat (v : DecVal) : String :=
  let ip := v.mant / 10 ^ v.scale
  let fr := v.mant % 10 ^ v.scale
  let fchars := stripTrailingZeros (padLeftZeros v.scale (toDecChars fr))
  String.mk (toDecChars ip ++ '.' :: (if fchars.isEmpty then ['0'] else fchars))

def removeCommaDollar (s : String) : String :=
  String.mk (s.data.filter (fun c => c != ',' && c != '$'))

/-- `clean_num` from the cleanup pass of `parse_usage_lines`: canonicalize a
numeric string via `str(float(s))`, falling back to stripping `,` and `$`. -/
def clean_num (s : String) : String :=
  if s.data.isEmpty then ""
  else
    match parsePyFloat s with
    | some v => renderFloat v
    | none => removeCommaDollar s

/-- `re.match(r"^\d+\.\d{3,4}$", n)` truth value. -/
def matches34 (s : String) : Bool :=
  let d1 := s.data.takeWhile pyIsDigit
  let r := s.data.dropWhile pyIsDigit
  match r with
  | '.' :: fp => !d1.isEmpty && fp.all pyIsDigit && (fp.length = 3 || fp.length = 4)
  | _ => false

def floatErrMsg (s : String) : String := "could not convert string to float: " ++ s

/-- `float(n)`, raising (as `Except.error`) on unparseable strings. -/
def parseFloatE (s : String) : Except String DecVal :=
  match parsePyFloat s with
  | some v => .ok v
  | none => .error (floatErrMsg s)

/-- The Python float value `10.0`, the threshold of the rate heuristic. -/
def tenVal : DecVal := ⟨10, 0⟩

/-- `[n for n in nums if re.match(r"^\d+\.\d{3,4}$", n) or float(n) < 10]` —
the comprehension evaluates `float(n)` (which may raise) only when the
pattern does not match. -/
def possibleRatesM : List String → Except String (List String)
  | [] => .ok []
  | n :: ns =>
      if matches34 n then
        match possibleRatesM ns with
        | .error e => .error e
        | .ok r => .ok (n :: r)
      else
        match parseFloatE n with
        | .error e => .error e
        | .ok q =>
            match possibleRatesM ns with
            | .error e => .error e
            | .ok r => if ltB q tenVal then .ok (n :: r) else .ok r

/-- `[n for n in nums[1:] if float(n) < 10]` (fallback pass). -/
def possibleRatesSimpleM : List String → Except String (List String)
  | [] => .ok []
  | n :: ns =>
      match parseFloatE n with
      | .error e => .error e
      | .ok q =>
          match possibleRatesSimpleM ns with
          | .error e => .error e
          | .ok r => if ltB q tenVal then .ok (n :: r) else .ok r

/-- Tail of Python `max(..., key=float)`: keep the current best, replacing it
only on a strictly larger key (ties keep the earlier element). -/
def pyMaxFloatAux : List String → String → DecVal → Except String String
  | [], best, _ => .ok best
  | y :: ys, best, vb =>
      match parseFloatE y with
      | .error e => .error e
      | .ok vy => if ltB vb vy then pyMaxFloatAux ys y vy else pyMaxFloatAux ys best vb

/-- `max(others, key=lambda x: float(x))`. -/
def pyMaxFloat : List String → Except String String
  | [] => .error "max() arg is an empty sequence"
  | x :: xs =>
      match parseFloatE x with
      | .error e => .error e
      | .ok vx => pyMaxFloatAux xs x vx

/-- The units/rate disambiguation of the primary pass (`app.py` lines
176–198) over the extracted numeric tokens; returns `(units, rate)`. -/
def pickUnitsRate (nums : List String) : Except String (String × String) :=
  match nums with
  | [] => .ok ("", "")
  | _ :: _ =>
      match possibleRatesM nums with
      | .error e => .error e
      | .ok (rate :: _) =>
          match nums.filter (fun n => n != rate) with
          | [] => .ok ("", rate)
          | o :: os =>
              match pyMaxFloat (o :: os) with
              | .error e => .error e
              | .ok u => .ok (u, rate)
      | .ok [] =>
          match nums with
          | a :: b :: _ => .ok (a, b)
          | [a] => .ok (a, "")
          | [] => .ok ("", "")

/-- One usage/tariff record, the dict literal
`{"Units":…, "Description":…, "Rate":…, "Discount":…}` of `parse_usage_lines`. -/
structure UsageLine where
  Units : String
  Description : String
  Rate : String
  Discount : String
deriving DecidableEq

/-- `strip(" -:|")` character set. -/
def stripDescSet1 (cs : List Char) : List Char :=
  stripChars (fun c => c = ' ' || c = '-' || c = ':' || c = '|') cs

/-- `strip(",:-")` character set. -/
def stripDescSet2 (cs : List Char) : List Char :=
  stripChars (fun c => c = ',' || c = ':' || c = '-') cs

/-- `re.sub(r"\s{2,}", " ", s)`: collapse maximal whitespace runs of length
at least two into a single space. -/
def collapseWSAux : Nat → List Char → List Char
  | 0, _ => []
  | _, [] => []
  | fuel + 1, c :: r =>
      if isPySpace c then
        match (c :: r).span isPySpace with
        | (sp, r2) =>
            if 2 ≤ sp.length then ' ' :: collapseWSAux fuel r2
            else c :: collapseWSAux fuel r
      else c :: collapseWSAux fuel r

def collapseWS (cs : List Char) : List Char := collapseWSAux cs.length cs

def totalWord : List Char := ['t','o','t','a','l']
def gstWord : List Char := ['g','s','t']
def amountDueWord : List Char := ['a','m','o','u','n','t',' ','d','u','e']
def balanceWord : List Char := ['b','a','l','a','n','c','e']

/-- Gate of the primary pass: a usage keyword, at least one digit, and no
word-bounded `total`. -/
def lineGate1 (cs : List Char) : Bool :=
  keywordSearch cs && hasDigit cs && !(wordsSearch [totalWord] cs)

/-- The discount captured in the primary pass: the `PCT_RE` group with
spaces removed. -/
def discount1 (cs : List Char) : String :=
  match findPct cs with
  | some g => String.mk (g.filter (fun c => c != ' '))
  | none => ""

/-- The description of the primary pass: numbers, then `\d+\s*%`, removed,
then `strip(" -:|")`. -/
def desc1 (cs : List Char) : String :=
  String.mk (stripDescSet1 (subPct (subNums cs)))

/-- Body of the primary-pass loop for one surviving line. -/
def parseLine1 (cs : List Char) : Except String UsageLine :=
  match pickUnitsRate (extract_numbers_from_string (String.mk cs)) with
  | .error e => .error e
  | .ok (units, rate) => .ok ⟨units, desc1 cs, rate, discount1 cs⟩

/-- Primary pass of `parse_usage_lines` over the non-empty stripped lines. -/
def pass1 : List (List Char) → Except String (List UsageLine)
  | [] => .ok []
  | ln :: rest =>
      if lineGate1 ln then
        match parseLine1 ln with
        | .error e => .error e
        | .ok r =>
            match pass1 rest with
            | .error e => .error e
            | .ok rs => .ok (r :: rs)
      else pass1 rest

/-- Summary words excluded by the fallback pass (source order). -/
def pass2Words : List (List Char) := [totalWord, gstWord, balanceWord, amountDueWord]

/-- The discount captured in the fallback pass (spaces kept, unlike the
primary pass). -/
def discount2 (cs : List Char) : String :=
  match findPct cs with
  | some g => String.mk g
  | none => ""

/-- The description of the fallback pass: numbers removed, `strip(" -:|")`. -/
def desc2 (cs : List Char) : String :=
  String.mk (stripDescSet1 (subNums cs))

def pass2 : List (List Char) → Except String (List UsageLine)
  | [] => .ok []
  | ln :: rest =>
      let nums := extract_numbers_from_string (String.mk ln)
      if 2 ≤ nums.length && !(wordsSearch pass2Words ln) then
        match nums with
        | a :: b :: _ =>
            match possibleRatesSimpleM (nums.drop 1) with
            | .error e => .error e
            | .ok prs =>
                match pass2 rest with
                | .error e => .error e
                | .ok rs =>
                    .ok (⟨a, desc2 ln, (match prs with | p :: _ => p | [] => b),
                          discount2 ln⟩ :: rs)
        | _ => pass2 rest
      else pass2 rest

/-- Summary words of the final record-level filter (source order). -/
def keepWords : List (List Char) := [totalWord, gstWord, amountDueWord, balanceWord]

/-- The normalization applied to every collected record. -/
def cleanupItem (it : UsageLine) : UsageLine :=
  { Units := clean_num it.Units,
    Description := String.mk (collapseWS (stripDescSet2 it.Description.data)),
    Rate := clean_num it.Rate,
    Discount := String.mk (it.Discount.data.filter (fun c => c != ' ')) }

/-- The final record-level filter: non-empty description, no summary word. -/
def keepItem (it : UsageLine) : Bool :=
  !it.Description.data.isEmpty && !(wordsSearch keepWords it.Description.data)

/-- Non-empty stripped lines of the input text. -/
def usageLines (text : String) : List (List Char) :=
  ((splitlines text.data).map (stripChars isPySpace)).filter (fun l => !l.isEmpty)

/-- `parse_usage_lines`: the heuristic usage/tariff-line extractor. -/
def parse_usage_lines (text : String) : Except String (List UsageLine) :=
  match pass1 (usageLines text) with
  | .error e => .error e
  | .ok parsed =>
      match (if parsed.isEmpty then pass2 (usageLines text) else .ok parsed) with
      | .error e => .error e
      | .ok parsed2 => .ok (((parsed2.map cleanupItem).filter keepItem).take 30)

/-- Every successful extraction result is the capped, filtered cleanup of
some collected record list. -/
lemma parse_usage_lines_ok_shape {text : String} {l : List UsageLine}
    (h : parse_usage_lines text = .ok l) :
    ∃ items : List UsageLine,
      l = ((items.map cleanupItem).filter keepItem).take 30 := by
  unfold parse_usage_lines at h
  cases hp : pass1 (usageLines text) with
  | error e => rw [hp] at h; simp at h
  | ok parsed =>
      rw [hp] at h
      dsimp only at h
      by_cases he : parsed.isEmpty
      · simp only [he, if_pos] at h
        cases hq : pass2 (usageLines text) with
        | error e => rw [hq] at h; simp at h
        | ok p2 =>
            rw [hq] at h
            exact ⟨p2, by injection h with h2; exact h2.symm⟩
      · simp only [if_neg he] at h
        exact ⟨parsed, by injection h with h2; exact h2.symm⟩

/-- Claim C6: for every input text, a successful `parse_usage_lines` result
has at most 30 records. -/
theorem parse_usage_lines_cap (text : String) (l : List UsageLine)
    (h : parse_usage_lines text = .ok l) : l.length ≤ 30 := by
  obtain ⟨items, rfl⟩ := parse_usage_lines_ok_shape h
  simp only [List.length_take]
  exact min_le_left 30 ((items.map cleanupItem).filter keepItem).length

/-- Witness for C6 at a concrete bill line. -/
theorem parse_usage_lines_cap_witness :
    parse_usage_lines "Peak Usage 22,491.80 kWh @ $0.0632" =
      .ok [⟨"22491.8", "Peak Usage kWh @", "0.0632", ""⟩] ∧
    ([(⟨"22491.8", "Peak Usage kWh @", "0.0632", ""⟩ : UsageLine)]).length ≤ 30 :=
  ⟨rfl, parse_usage_lines_cap "Peak Usage 22,491.80 kWh @ $0.0632" _ rfl⟩

/-- Whether `needle` occurs as a contiguous sublist of `hay`. -/
def listHasInfix (needle : List Char) : List Char → Bool
  | [] => (dropLit needle []).isSome
  | c :: t => (dropLit needle (c :: t)).isSome || listHasInfix needle t

/-- Case-insensitive substring containment. -/
def containsCI (needle hay : String) : Bool :=
  listHasInfix (needle.data.map Char.toLower) (hay.data.map Char.toLower)

/-- Counterexample to claim C3 as stated: on the line `subtotal usage 5`
the extractor returns a record whose description case-insensitively
contains the substring `total`; the source filter is word-bounded, not a
substring test, so `subtotal` survives. -/
theorem description_substring_counterexample :
    parse_usage_lines "subtotal usage 5" = .ok [⟨"", "subtotal usage", "5.0", ""⟩] ∧
    containsCI "total" "subtotal usage" = true :=
  ⟨rfl, rfl⟩

/-- Claim C3 (amended): every returned record has a non-empty description
that contains none of `total`, `gst`, `amount due`, `balance` as a
word-bounded, case-insensitive match. -/
theorem description_word_filter_invariant (text : String) (l : List UsageLine)
    (r : UsageLine) (h : parse_usage_lines text = .ok l) (hr : r ∈ l) :
    r.Description ≠ "" ∧ wordsSearch keepWords r.Description.data = false := by
  obtain ⟨items, rfl⟩ := parse_usage_lines_ok_shape h
  have h2 : r ∈ (items.map cleanupItem).filter keepItem :=
    List.take_subset 30 _ hr
  have h3 : keepItem r = true := (List.mem_filter.mp h2).2
  unfold keepItem at h3
  obtain ⟨h4, h5⟩ := Bool.and_eq_true_iff.mp h3
  refine ⟨?_, ?_⟩
  · intro hEq
    rw [hEq] at h4
    exact absurd h4 (by simp)
  · simpa using h5

/-- Witness for (amended) C3 at a concrete bill line. -/
theorem description_word_filter_invariant_witness :
    parse_usage_lines "Daily Supply 98" = .ok [⟨"98.0", "Daily Supply", "", ""⟩] ∧
    ((⟨"98.0", "Daily Supply", "", ""⟩ : UsageLine).Description ≠ "" ∧
      wordsSearch keepWords
        (⟨"98.0", "Daily Supply", "", ""⟩ : UsageLine).Description.data = false) :=
  ⟨rfl,
    description_word_filter_invariant "Daily Supply 98"
      [⟨"98.0", "Daily Supply", "", ""⟩] ⟨"98.0", "Daily Supply", "", ""⟩ rfl
      (List.mem_singleton.mpr rfl)⟩

/-- Claim C1 (code-bug evidence): on the line `kwh 5 ,` the trailing comma
is extracted as the numeric token `,`, stripped to the empty string, and
`float("")` raises inside the possible-rates comprehension, so
`parse_usage_lines` propagates an exception instead of never raising; on a
text with no matching line it does return the empty list. -/
theorem parse_usage_lines_float_error :
    parse_usage_lines "kwh 5 ," = .error (floatErrMsg "") ∧
    parse_usage_lines "no numbers here" = .ok [] :=
  ⟨rfl, rfl⟩

/-- A token is a possible rate when it matches the 3–4-decimal pattern or
its float value is below ten. -/
def isPossibleRate (n : String) : Bool :=
  matches34 n ||
    (match parsePyFloat n with
     | some q => ltB q tenVal
     | none => false)

/-- A successful possible-rates comprehension computes exactly the
order-preserving filter of the tokens by `isPossibleRate`. -/
lemma possibleRatesM_ok_eq_filter :
    ∀ {nums prs : List String}, possibleRatesM nums = .ok prs →
      prs = nums.filter isPossibleRate
  | [], prs, h => by
      unfold possibleRatesM at h
      injection h with h2
      simp [h2.symm]
  | n :: ns, prs, h => by
      unfold possibleRatesM at h
      cases hm : matches34 n with
      | true =>
          simp only [hm, eq_self_iff_true, if_true] at h
          cases hr : possibleRatesM ns with
          | error e => rw [hr] at h; simp at h
          | ok r =>
              rw [hr] at h
              injection h with h2
              have ih := possibleRatesM_ok_eq_filter hr
              rw [List.filter_cons_of_pos (by simp [isPossibleRate, hm])]
              rw [h2.symm, ih]
      | false =>
          simp only [hm, Bool.false_eq_true, if_false] at h
          cases hpn : parsePyFloat n with
          | none => rw [show parseFloatE n = .error (floatErrMsg n) by
                      simp [parseFloatE, hpn]] at h; simp at h
          | some q =>
              rw [show parseFloatE n = .ok q by simp [parseFloatE, hpn]] at h
              dsimp only at h
              cases hr : possibleRatesM ns with
              | error e => rw [hr] at h; simp at h
              | ok r =>
                  rw [hr] at h
                  have ih := possibleRatesM_ok_eq_filter hr
                  cases hl : ltB q tenVal with
                  | true =>
                      rw [hl] at h
                      simp only [if_pos] at h
                      injection h with h2
                      rw [List.filter_cons_of_pos (by simp [isPossibleRate, hm, hpn, hl])]
                      rw [h2.symm, ih]
                  | false =>
                      rw [hl] at h
                      simp only [Bool.false_eq_true, if_false] at h
                      injection h with h2
                      rw [List.filter_cons_of_neg (by simp [isPossibleRate, hm, hpn, hl])]
                      rw [h2.symm, ih]

/-- The exact comparison agrees with the rational ordering of the values. -/
lemma ltB_iff (a b : DecVal) : ltB a b = true ↔ a.toRat < b.toRat := by
  unfold ltB DecVal.toRat
  rw [decide_eq_true_eq]
  rw [div_lt_div_iff₀ (by positivity) (by positivity)]
  constructor
  · intro hlt
    exact_mod_cast hlt
  · intro hlt
    exact_mod_cast hlt

/-- Specification of the running-maximum loop of `max(..., key=float)`. -/
lemma pyMaxFloatAux_spec :
    ∀ (ys : List String) (best : String) (vb : DecVal) (u : String),
      pyMaxFloatAux ys best vb = .ok u → parsePyFloat best = some vb →
      ∃ vu, parsePyFloat u = some vu ∧ (u = best ∨ u ∈ ys) ∧ vb.toRat ≤ vu.toRat ∧
        ∀ y ∈ ys, ∃ qy, parsePyFloat y = some qy ∧ qy.toRat ≤ vu.toRat
  | [], best, vb, u, h, hb => by
      unfold pyMaxFloatAux at h
      injection h with h2
      subst h2
      exact ⟨vb, hb, Or.inl rfl, le_refl _, by simp⟩
  | y :: ys, best, vb, u, h, hb => by
      unfold pyMaxFloatAux at h
      cases hpy : parsePyFloat y with
      | none =>
          rw [show parseFloatE y = .error (floatErrMsg y) from by
            simp [parseFloatE, hpy]] at h
          simp at h
      | some vy =>
          rw [show parseFloatE y = .ok vy from by simp [parseFloatE, hpy]] at h
          dsimp only at h
          cases hl : ltB vb vy with
          | true =>
              simp only [hl, eq_self_iff_true, if_true] at h
              obtain ⟨vu, hu, hmem, hle, hall⟩ := pyMaxFloatAux_spec ys y vy u h hpy
              refine ⟨vu, hu, ?_, ?_, ?_⟩
              · rcases hmem with rfl | hm
                · exact Or.inr (List.mem_cons_self _ _)
                · exact Or.inr (List.mem_cons_of_mem _ hm)
              · have hlt : vb.toRat < vy.toRat := (ltB_iff _ _).mp hl
                exact le_of_lt (lt_of_lt_of_le hlt hle)
              · intro z hz
                rcases List.mem_cons.mp hz with rfl | hz2
                · exact ⟨vy, hpy, hle⟩
                · exact hall z hz2
          | false =>
              simp only [hl, Bool.false_eq_true, if_false] at h
              obtain ⟨vu, hu, hmem, hle, hall⟩ := pyMaxFloatAux_spec ys best vb u h hb
              refine ⟨vu, hu, ?_, hle, ?_⟩
              · rcases hmem with rfl | hm
                · exact Or.inl rfl
                · exact Or.inr (List.mem_cons_of_mem _ hm)
              · intro z hz
                rcases List.mem_cons.mp hz with rfl | hz2
                · have hnlt : ¬ vb.toRat < vy.toRat := by
                    intro hlt
                    rw [(ltB_iff vb vy).mpr hlt] at hl
                    exact Bool.noConfusion hl
                  exact ⟨vy, hpy, le_trans (not_lt.mp hnlt) hle⟩
                · exact hall z hz2

/-- Specification of `max(l, key=float)`: on success the result is an
element of `l` whose float value is maximal among all elements. -/
lemma pyMaxFloat_spec (l : List String) (u : String) (h : pyMaxFloat l = .ok u) :
    ∃ vu, parsePyFloat u = some vu ∧ u ∈ l ∧
      ∀ y ∈ l, ∃ qy, parsePyFloat y = some qy ∧ qy.toRat ≤ vu.toRat := by
  cases l with
  | nil => simp [pyMaxFloat] at h
  | cons x xs =>
      unfold pyMaxFloat at h
      dsimp only at h
      cases hpx : parsePyFloat x with
      | none =>
          rw [show parseFloatE x = .error (floatErrMsg x) from by
            simp [parseFloatE, hpx]] at h
          simp at h
      | some vx =>
          rw [show parseFloatE x = .ok vx from by simp [parseFloatE, hpx]] at h
          dsimp only at h
          obtain ⟨vu, hu, hmem, hle, hall⟩ := pyMaxFloatAux_spec xs x vx u h hpx
          refine ⟨vu, hu, ?_, ?_⟩
          · rcases hmem with rfl | hm
            · exact List.mem_cons_self _ _
            · exact List.mem_cons_of_mem _ hm
          · intro z hz
            rcases List.mem_cons.mp hz with rfl | hz2
            · exact ⟨vx, hpx, hle⟩
            · exact hall z hz2

/-- Claim C2: in the primary pass, whenever the possible-rates subset of
the numeric tokens is non-empty, the chosen rate is the first
possible-rate token in left-to-right order, and the units is the
maximum-by-float-value token among the tokens not string-equal to the
rate (empty when none remain); in particular for the line
`Supply Charge 1 day @ 1.231` the rate is `1` and the units is `1.231`. -/
theorem primary_rate_units_selection :
    (∀ (nums prs : List String) (units rate : String),
        possibleRatesM nums = .ok prs → prs ≠ [] →
        pickUnitsRate nums = .ok (units, rate) →
        prs = nums.filter isPossibleRate ∧
        prs.head? = some rate ∧
        (nums.filter (fun n => n != rate) = [] → units = "") ∧
        (nums.filter (fun n => n != rate) ≠ [] →
          units ∈ nums.filter (fun n => n != rate) ∧
          ∀ x ∈ nums.filter (fun n => n != rate), ∀ qx qu : DecVal,
            parsePyFloat x = some qx → parsePyFloat units = some qu →
            qx.toRat ≤ qu.toRat)) ∧
    extract_numbers_from_string "Supply Charge 1 day @ 1.231" = ["1", "1.231"] ∧
    pickUnitsRate ["1", "1.231"] = .ok ("1.231", "1") := by
  refine ⟨?_, rfl, rfl⟩
  intro nums prs units rate h1 h2 h3
  cases nums with
  | nil =>
      unfold possibleRatesM at h1
      injection h1 with h
      exact absurd h.symm h2
  | cons a as =>
      unfold pickUnitsRate at h3
      rw [h1] at h3
      dsimp only at h3
      cases prs with
      | nil => exact absurd rfl h2
      | cons r0 rtl =>
          dsimp only at h3
          have hfiltereq := possibleRatesM_ok_eq_filter h1
          cases hf : (a :: as).filter (fun n => n != r0) with
          | nil =>
              rw [hf] at h3
              injection h3 with h4
              obtain ⟨hu, hr⟩ := Prod.mk.inj h4
              subst hr
              subst hu
              refine ⟨hfiltereq, rfl, fun _ => rfl, fun hne => absurd hf hne⟩
          | cons o os =>
              rw [hf] at h3
              dsimp only at h3
              cases hmax : pyMaxFloat (o :: os) with
              | error e => rw [hmax] at h3; simp at h3
              | ok u0 =>
                  rw [hmax] at h3
                  injection h3 with h4
                  obtain ⟨hu, hr⟩ := Prod.mk.inj h4
                  subst hr
                  subst hu
                  rw [← hf] at hmax
                  obtain ⟨vu, hvu, hmem, hall⟩ := pyMaxFloat_spec _ _ hmax
                  refine ⟨hfiltereq, rfl, ?_, ?_⟩
                  · intro habs
                    rw [habs] at hf
                    exact absurd hf.symm (by simp)
                  · intro _
                    refine ⟨hmem, ?_⟩
                    intro x hx qx qu hqx hqu
                    obtain ⟨qy, hqy, hqyle⟩ := hall x hx
                    have e1 : qx = qy := by
                      rw [hqx] at hqy
                      exact Option.some.injEq _ _ ▸ hqy
                    have e2 : qu = vu := by
                      rw [hqu] at hvu
                      exact Option.some.injEq _ _ ▸ hvu
                    rw [e1, e2]
                    exact hqyle

/-- Witness for C2 at the tokens of `Supply Charge 1 day @ 1.231`. -/
theorem primary_rate_units_selection_witness :
    (["1", "1.231"] : List String) = ["1", "1.231"].filter isPossibleRate ∧
    (["1", "1.231"] : List String).head? = some "1" := by
  have h := primary_rate_units_selection.1 ["1", "1.231"] ["1", "1.231"] "1.231" "1"
    rfl (by simp) rfl
  exact ⟨h.1, h.2.1⟩

/-- Digit characters enumerate to their ten possible values. -/
lemma pyIsDigit_cases {c : Char} (h : pyIsDigit c = true) :
    c = '0' ∨ c = '1' ∨ c = '2' ∨ c = '3' ∨ c = '4' ∨
    c = '5' ∨ c = '6' ∨ c = '7' ∨ c = '8' ∨ c = '9' := by
  unfold pyIsDigit at h
  simp only [Bool.or_eq_true, decide_eq_true_eq] at h
  tauto

lemma charDigit_digitChar {n : Nat} (h : n < 10) : charDigit (digitChar n) = n := by
  interval_cases n <;> rfl

lemma digitChar_charDigit {c : Char} (h : pyIsDigit c = true) :
    digitChar (charDigit c) = c := by
  rcases pyIsDigit_cases h with rfl | rfl | rfl | rfl | rfl | rfl | rfl | rfl | rfl | rfl <;> rfl

lemma pyIsDigit_digitChar (n : Nat) : pyIsDigit (digitChar n) = true := by
  unfold digitChar
  split <;> rfl

lemma charDigit_lt_ten (c : Char) : charDigit c < 10 := by
  unfold charDigit
  split <;> omega

lemma digit_ne_dot {c : Char} (h : pyIsDigit c = true) : (c != '.') = true := by
  rcases pyIsDigit_cases h with rfl | rfl | rfl | rfl | rfl | rfl | rfl | rfl | rfl | rfl <;> rfl

lemma digit_not_space {c : Char} (h : pyIsDigit c = true) : isPySpace c = false := by
  rcases pyIsDigit_cases h with rfl | rfl | rfl | rfl | rfl | rfl | rfl | rfl | rfl | rfl <;> rfl

lemma ofDecChars_cons_zero (cs : List Char) : ofDecChars ('0' :: cs) = ofDecChars cs := rfl

lemma ofDecChars_append_singleton (A : List Char) (c : Char) :
    ofDecChars (A ++ [c]) = 10 * ofDecChars A + charDigit c := by
  unfold ofDecChars
  rw [List.foldl_append]
  rfl

lemma ofDecChars_replicate_zero (j : Nat) (cs : List Char) :
    ofDecChars (List.replicate j '0' ++ cs) = ofDecChars cs := by
  induction j with
  | zero => rfl
  | succ j ih => simp only [List.replicate_succ, List.cons_append, ofDecChars_cons_zero, ih]

lemma foldl_decimal_lt (cs : List Char) :
    ∀ a : Nat, cs.foldl (fun a c => 10 * a + charDigit c) a < (a + 1) * 10 ^ cs.length := by
  induction cs with
  | nil => intro a; simp
  | cons c cs ih =>
      intro a
      have h1 := ih (10 * a + charDigit c)
      have h2 : charDigit c < 10 := charDigit_lt_ten c
      calc (c :: cs).foldl (fun a c => 10 * a + charDigit c) a
          = cs.foldl (fun a c => 10 * a + charDigit c) (10 * a + charDigit c) := rfl
        _ < (10 * a + charDigit c + 1) * 10 ^ cs.length := h1
        _ ≤ ((a + 1) * 10) * 10 ^ cs.length := by
              have : 10 * a + charDigit c + 1 ≤ (a + 1) * 10 := by omega
              exact Nat.mul_le_mul_right _ this
        _ = (a + 1) * 10 ^ (c :: cs).length := by
              rw [List.length_cons]
              ring

lemma ofDecChars_lt (cs : List Char) : ofDecChars cs < 10 ^ cs.length := by
  have h := foldl_decimal_lt cs 0
  simpa [ofDecChars] using h

lemma foldl_decimal_ge (cs : List Char) :
    ∀ a : Nat, a ≤ cs.foldl (fun a c => 10 * a + charDigit c) a := by
  induction cs with
  | nil => intro a; exact le_refl a
  | cons c cs ih =>
      intro a
      have h1 := ih (10 * a + charDigit c)
      have : a ≤ 10 * a + charDigit c := by omega
      exact le_trans this h1

lemma ofDecChars_pos {c : Char} {cs : List Char} (hc : pyIsDigit c = true)
    (hne : c ≠ '0') : 1 ≤ ofDecChars (c :: cs) := by
  have h1 : 1 ≤ charDigit c := by
    rcases pyIsDigit_cases hc with rfl | rfl | rfl | rfl | rfl | rfl | rfl | rfl | rfl | rfl
    · exact absurd rfl hne
    all_goals simp [charDigit]
  have h2 := foldl_decimal_ge cs (charDigit c)
  calc 1 ≤ charDigit c := h1
    _ ≤ _ := h2
    _ = ofDecChars (c :: cs) := by simp [ofDecChars]

lemma toDecCharsAux_fuel_irrel :
    ∀ (f g n : Nat), n < f → n < g → toDecCharsAux f n = toDecCharsAux g n
  | 0, _, n, hf, _ => absurd hf (Nat.not_lt_zero n)
  | _ + 1, 0, n, _, hg => absurd hg (Nat.not_lt_zero n)
  | f + 1, g + 1, n, hf, hg => by
      unfold toDecCharsAux
      by_cases h10 : n < 10
      · rw [if_pos h10, if_pos h10]
      · rw [if_neg h10, if_neg h10]
        have hd : n / 10 < n := Nat.div_lt_self (by omega) (by omega)
        rw [toDecCharsAux_fuel_irrel f g (n / 10) (by omega) (by omega)]

lemma ofDecChars_toDecCharsAux :
    ∀ (f n : Nat), n < f → ofDecChars (toDecCharsAux f n) = n
  | 0, n, hf => absurd hf (Nat.not_lt_zero n)
  | f + 1, n, hf => by
      unfold toDecCharsAux
      by_cases h10 : n < 10
      · rw [if_pos h10]
        show 10 * 0 + charDigit (digitChar n) = n
        rw [charDigit_digitChar h10]
        omega
      · rw [if_neg h10]
        rw [ofDecChars_append_singleton]
        have hd : n / 10 < n := Nat.div_lt_self (by omega) (by omega)
        rw [ofDecChars_toDecCharsAux f (n / 10) (by omega)]
        rw [charDigit_digitChar (Nat.mod_lt n (by omega))]
        omega

lemma ofDecChars_toDecChars (n : Nat) : ofDecChars (toDecChars n) = n :=
  ofDecChars_toDecCharsAux (n + 1) n (Nat.lt_succ_self n)

lemma toDecCharsAux_all_digits :
    ∀ (f n : Nat), (toDecCharsAux f n).all pyIsDigit = true
  | 0, _ => rfl
  | f + 1, n => by
      unfold toDecCharsAux
      by_cases h10 : n < 10
      · rw [if_pos h10]
        simp [pyIsDigit_digitChar]
      · rw [if_neg h10]
        rw [List.all_append]
        rw [toDecCharsAux_all_digits f (n / 10)]
        simp [pyIsDigit_digitChar]

lemma toDecCharsAux_ne_nil :
    ∀ (f n : Nat), 0 < f → toDecCharsAux f n ≠ []
  | 0, _, hf => absurd hf (by omega)
  | f + 1, n, _ => by
      unfold toDecCharsAux
      by_cases h10 : n < 10
      · rw [if_pos h10]; simp
      · rw [if_neg h10]; simp

lemma toDecChars_all_digits (n : Nat) : (toDecChars n).all pyIsDigit = true :=
  toDecCharsAux_all_digits (n + 1) n

lemma toDecChars_ne_nil (n : Nat) : toDecChars n ≠ [] :=
  toDecCharsAux_ne_nil (n + 1) n (by omega)

lemma toDecCharsAux_length_le :
    ∀ (f n k : Nat), n < f → n < 10 ^ k → 1 ≤ k → (toDecCharsAux f n).length ≤ k
  | 0, n, _, hf, _, _ => absurd hf (Nat.not_lt_zero n)
  | f + 1, n, k, hf, hk, hk1 => by
      unfold toDecCharsAux
      by_cases h10 : n < 10
      · rw [if_pos h10]
        simpa using hk1
      · rw [if_neg h10]
        rw [List.length_append]
        have hk2 : 2 ≤ k := by
          by_contra hcon
          have : k = 1 := by omega
          subst this
          simp at hk
          omega
        have hd : n / 10 < n := Nat.div_lt_self (by omega) (by omega)
        have hdk : n / 10 < 10 ^ (k - 1) := by
          rw [Nat.div_lt_iff_lt_mul (by omega)]
          calc n < 10 ^ k := hk
            _ = 10 ^ (k - 1) * 10 := by
                rw [← pow_succ]
                congr 1
                omega
        have := toDecCharsAux_length_le f (n / 10) (k - 1) (by omega) hdk (by omega)
        simp only [List.length_cons, List.length_nil]
        omega

lemma toDecChars_length_le {n k : Nat} (hk : n < 10 ^ k) (hk1 : 1 ≤ k) :
    (toDecChars n).length ≤ k :=
  toDecCharsAux_length_le (n + 1) n k (Nat.lt_succ_self n) hk hk1

lemma toDecChars_ofDecChars_no_leading_zero (F : List Char) :
    F.all pyIsDigit = true → F ≠ [] → F.head? ≠ some '0' →
    toDecChars (ofDecChars F) = F := by
  induction F using List.reverseRecOn with
  | nil => intro _ hne _; exact absurd rfl hne
  | append_singleton A c ih =>
      intro hdig _ hhead
      have hdigA : A.all pyIsDigit = true := by
        rw [List.all_append] at hdig
        exact (Bool.and_eq_true_iff.mp hdig).1
      have hdigc : pyIsDigit c = true := by
        rw [List.all_append] at hdig
        have := (Bool.and_eq_true_iff.mp hdig).2
        simpa using this
      cases A with
      | nil =>
          have hofc : ofDecChars [c] = charDigit c := by
            simp [ofDecChars]
          rw [List.nil_append, hofc]
          unfold toDecChars toDecCharsAux
          rw [if_pos (charDigit_lt_ten c)]
          rw [digitChar_charDigit hdigc]
      | cons a as =>
          have hheadA : (a :: as).head? ≠ some '0' := by
            simpa using hhead
          have ha0 : a ≠ '0' := by
            intro hcon
            exact hheadA (by rw [hcon]; rfl)
          have hdiga : pyIsDigit a = true := by
            have := hdigA
            rw [List.all_cons] at this
            exact (Bool.and_eq_true_iff.mp this).1
          have hA1 : 1 ≤ ofDecChars (a :: as) := ofDecChars_pos hdiga ha0
          have hn : ofDecChars ((a :: as) ++ [c]) = 10 * ofDecChars (a :: as) + charDigit c :=
            ofDecChars_append_singleton _ _
          have hd10 : charDigit c < 10 := charDigit_lt_ten c
          have hge : ¬ ofDecChars ((a :: as) ++ [c]) < 10 := by omega
          unfold toDecChars toDecCharsAux
          rw [if_neg hge]
          have hdiv : ofDecChars ((a :: as) ++ [c]) / 10 = ofDecChars (a :: as) := by omega
          have hmod : ofDecChars ((a :: as) ++ [c]) % 10 = charDigit c := by omega
          rw [hdiv, hmod]
          rw [toDecCharsAux_fuel_irrel (ofDecChars ((a :: as) ++ [c]))
            (ofDecChars (a :: as) + 1) (ofDecChars (a :: as)) (by omega) (by omega)]
          have ihh := ih hdigA (by simp) hheadA
          unfold toDecChars at ihh
          rw [ihh, digitChar_charDigit hdigc]

lemma padLeftZeros_succ (k : Nat) (X : List Char) (h : X.length ≤ k) :
    padLeftZeros (k + 1) X = '0' :: padLeftZeros k X := by
  unfold padLeftZeros
  rw [show k + 1 - X.length = (k - X.length) + 1 by omega]
  simp [List.replicate_succ]

lemma padLeft_toDec_ofDec : ∀ (F : List Char), F.all pyIsDigit = true → F ≠ [] →
    padLeftZeros F.length (toDecChars (ofDecChars F)) = F
  | [], _, hne => absurd rfl hne
  | c :: F2, hdig, _ => by
      have hdigc : pyIsDigit c = true := by
        rw [List.all_cons] at hdig
        exact (Bool.and_eq_true_iff.mp hdig).1
      have hdigF2 : F2.all pyIsDigit = true := by
        rw [List.all_cons] at hdig
        exact (Bool.and_eq_true_iff.mp hdig).2
      by_cases hc0 : c = '0'
      · subst hc0
        cases F2 with
        | nil => rfl
        | cons d ds =>
            have ih := padLeft_toDec_ofDec (d :: ds) hdigF2 (by simp)
            have hof : ofDecChars ('0' :: d :: ds) = ofDecChars (d :: ds) :=
              ofDecChars_cons_zero _
            have hlen : (toDecChars (ofDecChars (d :: ds))).length ≤ (d :: ds).length :=
              toDecChars_length_le (ofDecChars_lt _) (by simp)
            rw [hof]
            rw [show ('0' :: d :: ds).length = (d :: ds).length + 1 from rfl]
            rw [padLeftZeros_succ _ _ hlen]
            rw [ih]
      · have hhead : (c :: F2).head? ≠ some '0' := by
          simp only [List.head?_cons]
          intro hcon
          exact hc0 (Option.some.injEq _ _ ▸ hcon)
        rw [toDecChars_ofDecChars_no_leading_zero (c :: F2) hdig (by simp) hhead]
        unfold padLeftZeros
        simp

lemma dropWhile_of_all_false {p : Char → Bool} :
    ∀ {cs : List Char}, (∀ c ∈ cs, p c = false) → cs.dropWhile p = cs
  | [], _ => rfl
  | c :: t, h => by
      rw [List.dropWhile_cons, h c (List.mem_cons_self _ _)]
      simp

lemma stripChars_of_all_false {p : Char → Bool} {cs : List Char}
    (h : ∀ c ∈ cs, p c = false) : stripChars p cs = cs := by
  unfold stripChars
  rw [dropWhile_of_all_false h]
  rw [dropWhile_of_all_false (fun c hc => h c (List.mem_reverse.mp hc))]
  exact List.reverse_reverse cs

lemma takeWhile_ne_dot_append :
    ∀ (A B : List Char), (∀ c ∈ A, (c != '.') = true) →
      (A ++ '.' :: B).takeWhile (fun c => c != '.') = A
  | [], B, _ => by simp [List.takeWhile_cons]
  | c :: A2, B, h => by
      rw [List.cons_append, List.takeWhile_cons, h c (List.mem_cons_self _ _)]
      rw [takeWhile_ne_dot_append A2 B (fun d hd => h d (List.mem_cons_of_mem _ hd))]
      simp

lemma dropWhile_ne_dot_append :
    ∀ (A B : List Char), (∀ c ∈ A, (c != '.') = true) →
      (A ++ '.' :: B).dropWhile (fun c => c != '.') = '.' :: B
  | [], B, _ => by simp [List.dropWhile_cons]
  | c :: A2, B, h => by
      rw [List.cons_append, List.dropWhile_cons, h c (List.mem_cons_self _ _)]
      rw [dropWhile_ne_dot_append A2 B (fun d hd => h d (List.mem_cons_of_mem _ hd))]
      simp

lemma dropWhile_idem {p : Char → Bool} :
    ∀ (cs : List Char), (cs.dropWhile p).dropWhile p = cs.dropWhile p
  | [] => rfl
  | c :: t => by
      rw [List.dropWhile_cons]
      by_cases h : p c = true
      · rw [if_pos h]
        exact dropWhile_idem t
      · rw [if_neg h]
        rw [List.dropWhile_cons]
        rw [if_neg h]

lemma stripTrailingZeros_idem (cs : List Char) :
    stripTrailingZeros (stripTrailingZeros cs) = stripTrailingZeros cs := by
  unfold stripTrailingZeros
  rw [List.reverse_reverse, dropWhile_idem]

lemma all_stripTrailingZeros {p : Char → Bool} {cs : List Char}
    (h : cs.all p = true) : (stripTrailingZeros cs).all p = true := by
  rw [List.all_eq_true] at h ⊢
  intro c hc
  unfold stripTrailingZeros at hc
  rw [List.mem_reverse] at hc
  have hc2 := (List.dropWhile_sublist (l := cs.reverse) (p := fun c => c = '0')).subset hc
  exact h c (List.mem_reverse.mp hc2)

/-- The fractional digit characters that `renderFloat` prints after the dot. -/
def fracCharsOf (v : DecVal) : List Char :=
  let fr := v.mant % 10 ^ v.scale
  let raw := stripTrailingZeros (padLeftZeros v.scale (toDecChars fr))
  if raw.isEmpty then ['0'] else raw

lemma renderFloat_eq (v : DecVal) :
    renderFloat v = String.mk (toDecChars (v.mant / 10 ^ v.scale) ++ '.' :: fracCharsOf v) :=
  rfl

lemma padLeft_all_digits (k : Nat) (X : List Char) (h : X.all pyIsDigit = true) :
    (padLeftZeros k X).all pyIsDigit = true := by
  unfold padLeftZeros
  rw [List.all_append, h]
  rw [Bool.and_true]
  rw [List.all_eq_true]
  intro c hc
  rw [List.eq_of_mem_replicate hc]
  rfl

lemma fracCharsOf_all_digits (v : DecVal) : (fracCharsOf v).all pyIsDigit = true := by
  unfold fracCharsOf
  by_cases h : (stripTrailingZeros
      (padLeftZeros v.scale (toDecChars (v.mant % 10 ^ v.scale)))).isEmpty
  · rw [if_pos h]
    rfl
  · rw [if_neg h]
    exact all_stripTrailingZeros (padLeft_all_digits _ _ (toDecChars_all_digits _))

lemma fracCharsOf_ne_nil (v : DecVal) : fracCharsOf v ≠ [] := by
  unfold fracCharsOf
  by_cases h : (stripTrailingZeros
      (padLeftZeros v.scale (toDecChars (v.mant % 10 ^ v.scale)))).isEmpty
  · rw [if_pos h]
    simp
  · rw [if_neg h]
    intro hcon
    rw [hcon] at h
    exact h rfl

/-- Parsing a rendered float succeeds and yields the value determined by
the printed integer part and fractional digits. -/
lemma parse_renderFloat (v : DecVal) :
    parsePyFloat (renderFloat v) =
      some ⟨v.mant / 10 ^ v.scale * 10 ^ (fracCharsOf v).length +
              ofDecChars (fracCharsOf v),
            (fracCharsOf v).length⟩ := by
  have hdigA : ∀ c ∈ toDecChars (v.mant / 10 ^ v.scale), pyIsDigit c = true :=
    List.all_eq_true.mp (toDecChars_all_digits _)
  have hdigF : ∀ c ∈ fracCharsOf v, pyIsDigit c = true :=
    List.all_eq_true.mp (fracCharsOf_all_digits v)
  have hs : stripChars isPySpace
      (toDecChars (v.mant / 10 ^ v.scale) ++ '.' :: fracCharsOf v) =
      toDecChars (v.mant / 10 ^ v.scale) ++ '.' :: fracCharsOf v := by
    apply stripChars_of_all_false
    intro c hc
    rcases List.mem_append.mp hc with h1 | h2
    · exact digit_not_space (hdigA c h1)
    · rcases List.mem_cons.mp h2 with rfl | h3
      · rfl
      · exact digit_not_space (hdigF c h3)
  have hA : ∀ c ∈ toDecChars (v.mant / 10 ^ v.scale), (c != '.') = true :=
    fun c hc => digit_ne_dot (hdigA c hc)
  have hdata : (renderFloat v).data =
      toDecChars (v.mant / 10 ^ v.scale) ++ '.' :: fracCharsOf v := rfl
  unfold parsePyFloat parsePyFloatChars
  rw [hdata, hs]
  rw [takeWhile_ne_dot_append _ _ hA, dropWhile_ne_dot_append _ _ hA]
  unfold parsePyFloatSplit
  dsimp only
  rw [if_pos rfl]
  rw [if_pos ?side]
  case side =>
    rw [toDecChars_all_digits, fracCharsOf_all_digits]
    have hie : (toDecChars (v.mant / 10 ^ v.scale)).isEmpty = false := by
      cases hvv : toDecChars (v.mant / 10 ^ v.scale) with
      | nil => exact absurd hvv (toDecChars_ne_nil _)
      | cons x xs => rfl
    rw [hie]
    rfl
  rw [ofDecChars_toDecChars]

/-- The fractional digits of the reparsed value coincide with the printed
fractional digits. -/
lemma fracCharsOf_reparse (v : DecVal) :
    fracCharsOf ⟨v.mant / 10 ^ v.scale * 10 ^ (fracCharsOf v).length +
                   ofDecChars (fracCharsOf v),
                 (fracCharsOf v).length⟩ = fracCharsOf v := by
  by_cases hraw : (stripTrailingZeros
      (padLeftZeros v.scale (toDecChars (v.mant % 10 ^ v.scale)))).isEmpty
  · have hF0 : fracCharsOf v = ['0'] := by
      unfold fracCharsOf
      rw [if_pos hraw]
    rw [hF0]
    show fracCharsOf ⟨v.mant / 10 ^ v.scale * 10 ^ 1 + 0, 1⟩ = ['0']
    unfold fracCharsOf
    rw [show (⟨v.mant / 10 ^ v.scale * 10 ^ 1 + 0, 1⟩ : DecVal).mant %
          10 ^ (⟨v.mant / 10 ^ v.scale * 10 ^ 1 + 0, 1⟩ : DecVal).scale = 0 by
      show (v.mant / 10 ^ v.scale * 10 ^ 1 + 0) % 10 ^ 1 = 0
      rw [add_zero, pow_one, Nat.mul_mod_left]]
    rfl
  · have hF : fracCharsOf v = stripTrailingZeros
        (padLeftZeros v.scale (toDecChars (v.mant % 10 ^ v.scale))) := by
      unfold fracCharsOf
      rw [if_neg hraw]
    have hFne : fracCharsOf v ≠ [] := fracCharsOf_ne_nil v
    have hFdig : (fracCharsOf v).all pyIsDigit = true := fracCharsOf_all_digits v
    have hstrip0 : stripTrailingZeros (fracCharsOf v) = fracCharsOf v := by
      rw [hF]
      exact stripTrailingZeros_idem _
    set F := fracCharsOf v with hFdef
    have hpad : padLeftZeros F.length (toDecChars (ofDecChars F)) = F :=
      padLeft_toDec_ofDec _ hFdig hFne
    have hmod : (v.mant / 10 ^ v.scale * 10 ^ F.length + ofDecChars F) %
        10 ^ F.length = ofDecChars F := by
      rw [show v.mant / 10 ^ v.scale * 10 ^ F.length + ofDecChars F =
          10 ^ F.length * (v.mant / 10 ^ v.scale) + ofDecChars F by ring]
      rw [Nat.mul_add_mod]
      exact Nat.mod_eq_of_lt (ofDecChars_lt _)
    unfold fracCharsOf
    rw [show (⟨v.mant / 10 ^ v.scale * 10 ^ F.length + ofDecChars F,
          F.length⟩ : DecVal).mant %
          10 ^ (⟨v.mant / 10 ^ v.scale * 10 ^ F.length + ofDecChars F,
          F.length⟩ : DecVal).scale = ofDecChars F from hmod]
    rw [show (⟨v.mant / 10 ^ v.scale * 10 ^ F.length + ofDecChars F,
          F.length⟩ : DecVal).scale = F.length from rfl]
    dsimp only
    rw [hpad, hstrip0]
    rw [if_neg (by
      intro hcon
      rw [List.isEmpty_iff] at hcon
      exact hFne hcon)]

/-- Claim C8: `clean_num` is idempotent on canonical numeric strings: for
every decimal value, normalizing its rendered form returns it unchanged
(so normalizing any already-canonical numeric string is the identity). -/
theorem clean_num_idempotent_on_canonical (v : DecVal) :
    clean_num (renderFloat v) = renderFloat v := by
  have hdiv : (v.mant / 10 ^ v.scale * 10 ^ (fracCharsOf v).length +
      ofDecChars (fracCharsOf v)) / 10 ^ (fracCharsOf v).length =
      v.mant / 10 ^ v.scale := by
    rw [show v.mant / 10 ^ v.scale * 10 ^ (fracCharsOf v).length +
          ofDecChars (fracCharsOf v) =
        10 ^ (fracCharsOf v).length * (v.mant / 10 ^ v.scale) +
          ofDecChars (fracCharsOf v) by ring]
    rw [Nat.mul_add_div (by positivity)]
    rw [Nat.div_eq_of_lt (ofDecChars_lt _)]
    omega
  unfold clean_num
  rw [if_neg ?nonempty]
  case nonempty =>
    intro hcon
    have h2 : (toDecChars (v.mant / 10 ^ v.scale) ++ '.' :: fracCharsOf v).isEmpty
        = true := hcon
    simp at h2
  rw [parse_renderFloat v]
  show renderFloat _ = renderFloat v
  rw [renderFloat_eq, renderFloat_eq]
  rw [fracCharsOf_reparse v]
  rw [show (⟨v.mant / 10 ^ v.scale * 10 ^ (fracCharsOf v).length +
        ofDecChars (fracCharsOf v), (fracCharsOf v).length⟩ : DecVal).mant /
      10 ^ (⟨v.mant / 10 ^ v.scale * 10 ^ (fracCharsOf v).length +
        ofDecChars (fracCharsOf v), (fracCharsOf v).length⟩ : DecVal).scale =
      v.mant / 10 ^ v.scale from hdiv]

/-- Result of `re.search`: the whole match and, when the pattern's (single)
capturing group participated, its content.  All header patterns of the
source have exactly one capturing group enclosing everything they capture,
so a truthy `lastindex` is modelled by `group1 = some _`. -/
structure PyMatch where
  group0 : String
  group1 : Option String

/-- Python `str.strip()`. -/
def pyStripStr (s : String) : String := String.mk (stripChars isPySpace s.data)

/-- `find_first_regex`: try the compiled patterns in order; on the first
match return the trimmed first group if a group participated, else the
trimmed whole match; return the empty string when nothing matches.  The
regex engine itself is external: a compiled pattern is modelled as its
search function `String → Option PyMatch`. -/
def find_first_regex (text : String) : List (String → Option PyMatch) → String
  | [] => ""
  | p :: rest =>
      match p text with
      | some m =>
          match m.group1 with
          | some g => pyStripStr g
          | none => pyStripStr m.group0
      | none => find_first_regex text rest

def nmiPatterns : List String :=
  ["NMI[:\\s]*([A-Z0-9\\-]+)", "NMI/MIRN[:\\s]*([0-9\\-]+)", "\\b(\\d\x7b10,13\x7d)\\b"]

def accountNumberPatterns : List String :=
  ["Account\\s*Number[:\\s]*([A-Z0-9\\-]+)", "Account\\s*No[:\\s]*([A-Z0-9\\-]+)"]

def customerNamePatterns : List String :=
  ["Account\\s*Name[:\\s]*([A-Z\\-\\&\\.\\,\\s0-9]+)",
   "Customer[:\\s]*([A-Z\\-\\&\\.\\,\\s0-9]+)",
   "Bill to[:\\s]*([A-Z\\-\\&\\.\\,\\s0-9]+)"]

def retailerPatterns : List String :=
  ["Retailer[:\\s]*([A-Za-z0-9 \\-&]+)",
   "Current\\s*Energy\\s*Retailer[:\\s]*([A-Za-z0-9 \\-&]+)"]

def siteAddressPatterns : List String :=
  ["Service\\s*Address[:\\s]*([A-Z0-9a-z\\,\\.\\-\\/\\s]+)",
   "Site Address[:\\s]*([A-Z0-9a-z\\,\\.\\-\\/\\s]+)",
   "(\\d+\\s+[A-Za-z0-9\\s]+\\s+(Road|Rd|Street|St|Drive|Dr|Lane|Ln|Way|Ave|Avenue)[^\\n\\r]*)"]

def billingPeriodPatterns : List String :=
  ["Bill\\s*Period[:\\s]*([\\d]\x7b1,2\x7d\\s+[A-Za-z]\x7b3,9\x7d\\s+\\d\x7b4\x7d\\s*-\\s*[\\d]\x7b1,2\x7d\\s+[A-Za-z]\x7b3,9\x7d\\s+\\d\x7b4\x7d)",
   "Period[:\\s]*([\\d\\/\\-\\s]+to[\\d\\/\\-\\s]+)"]

def totalChargesPatterns : List String :=
  ["Total\\s*Amount[:\\s]*\\$?([\\d,]+\\.\\d\x7b2\x7d)",
   "Total\\s*\\(GST.*\\)[:\\s]*\\$?([\\d,]+\\.\\d\x7b2\x7d)",
   "Amount\\s*Due[:\\s]*\\$?([\\d,]+\\.\\d\x7b2\x7d)"]

/-- `parse_header_fields`: extract each header field by its prioritized
pattern list.  `research pat` stands for `lambda t: re.search(pat, t,
re.IGNORECASE | re.MULTILINE)` — the external regex engine applied to a
concrete pattern string. -/
def parse_header_fields (research : String → String → Option PyMatch)
    (text : String) : List (String × String) :=
  [("NMI", find_first_regex text (nmiPatterns.map research)),
   ("Account Number", find_first_regex text (accountNumberPatterns.map research)),
   ("Customer Name", find_first_regex text (customerNamePatterns.map research)),
   ("Retailer", find_first_regex text (retailerPatterns.map research)),
   ("Site Address", find_first_regex text (siteAddressPatterns.map research)),
   ("Billing Period", find_first_regex text (billingPeriodPatterns.map research)),
   ("Total Charges", find_first_regex text (totalChargesPatterns.map research))]

/-- Claim C5: for every regex engine and every text, `parse_header_fields`
returns exactly the seven known keys in order (so it is total and no key is
ever absent), and `find_first_regex` returns the empty string when no
pattern matches, and otherwise the trimmed group-1 content (falling back to
the trimmed whole match) of the first pattern that matches. -/
theorem parse_header_fields_spec :
    (∀ (research : String → String → Option PyMatch) (text : String),
        (parse_header_fields research text).map Prod.fst =
          ["NMI", "Account Number", "Customer Name", "Retailer", "Site Address",
           "Billing Period", "Total Charges"]) ∧
    (∀ (text : String) (pats : List (String → Option PyMatch)),
        (∀ p ∈ pats, p text = none) → find_first_regex text pats = "") ∧
    (∀ (text : String) (pats1 : List (String → Option PyMatch))
        (p : String → Option PyMatch) (pats2 : List (String → Option PyMatch))
        (m : PyMatch),
        (∀ q ∈ pats1, q text = none) → p text = some m →
        find_first_regex text (pats1 ++ p :: pats2) =
          pyStripStr (m.group1.getD m.group0)) := by
  refine ⟨fun _ _ => rfl, ?_, ?_⟩
  · intro text pats h
    induction pats with
    | nil => rfl
    | cons p rest ih =>
        unfold find_first_regex
        rw [h p (List.mem_cons_self _ _)]
        exact ih (fun q hq => h q (List.mem_cons_of_mem _ hq))
  · intro text pats1 p pats2 m h1 hp
    induction pats1 with
    | nil =>
        rw [List.nil_append]
        unfold find_first_regex
        rw [hp]
        dsimp only
        cases hg : m.group1 with
        | some g => rfl
        | none => rfl
    | cons q rest ih =>
        rw [List.cons_append]
        unfold find_first_regex
        rw [h1 q (List.mem_cons_self _ _)]
        exact ih (fun r hr => h1 r (List.mem_cons_of_mem _ hr))

/-- Witness for C5 with a concrete one-pattern engine. -/
theorem parse_header_fields_spec_witness :
    (parse_header_fields (fun _ _ => none) "x").map Prod.fst =
      ["NMI", "Account Number", "Customer Name", "Retailer", "Site Address",
       "Billing Period", "Total Charges"] ∧
    find_first_regex "x" [] = "" ∧
    find_first_regex "x"
        ([] ++ (fun _ => some ⟨"NMI 123", some " 123 "⟩) :: []) =
      pyStripStr ((some " 123 ").getD "NMI 123") :=
  ⟨parse_header_fields_spec.1 (fun _ _ => none) "x",
   parse_header_fields_spec.2.1 "x" [] (by simp),
   parse_header_fields_spec.2.2 "x" [] (fun _ => some ⟨"NMI 123", some " 123 "⟩)
     [] ⟨"NMI 123", some " 123 "⟩ (by simp) rfl⟩

/-- A Python float: an exact decimal value or one of the special values. -/
inductive PyFloat where
  | finite (v : DecVal)
  | inf
  | neginf
  | nan
deriving DecidableEq

/-- Python values reaching the writer. -/
inductive PyVal where
  | none
  | int (n : Int)
  | float (f : PyFloat)
  | str (s : String)
  | list (l : List PyVal)
  | dict (d : List (String × PyVal))

def intStr (n : Int) : String :=
  if n < 0 then String.mk ('-' :: toDecChars n.natAbs)
  else String.mk (toDecChars n.natAbs)

def floatStr : PyFloat → String
  | .finite v => renderFloat v
  | .inf => "inf"
  | .neginf => "-inf"
  | .nan => "nan"

def quoteChar : Char := Char.ofNat 39

def quoteStr : String := String.mk [quoteChar]

mutual

/-- Python `repr`, used by `str` on the elements of lists and dicts. -/
def pyRepr : PyVal → String
  | .none => "None"
  | .int n => intStr n
  | .float f => floatStr f
  | .str s => quoteStr ++ s ++ quoteStr
  | .list l => "[" ++ joinReprList l ++ "]"
  | .dict d => "\x7b" ++ joinReprDict d ++ "\x7d"

def joinReprList : List PyVal → String
  | [] => ""
  | [v] => pyRepr v
  | v :: w :: rest => pyRepr v ++ ", " ++ joinReprList (w :: rest)

def joinReprDict : List (String × PyVal) → String
  | [] => ""
  | [(k, v)] => quoteStr ++ k ++ quoteStr ++ ": " ++ pyRepr v
  | (k, v) :: e :: rest =>
      quoteStr ++ k ++ quoteStr ++ ": " ++ pyRepr v ++ ", " ++ joinReprDict (e :: rest)

end

/-- Python `str`. -/
def pyStr : PyVal → String
  | .str s => s
  | v => pyRepr v

/-- Remove the first `.` (Python `s.replace(".", "", 1)`). -/
def removeFirstDot : List Char → List Char
  | [] => []
  | c :: r => if c = '.' then r else c :: removeFirstDot r

/-- `s.replace(".", "", 1).isdigit()`. -/
def digitDotCond (t : List Char) : Bool :=
  !(removeFirstDot t).isEmpty && (removeFirstDot t).all pyIsDigit

/-- `safe_val` of the writer: Excel-safe coercion of one value. -/
def safe_val : PyVal → PyVal
  | .none => .str ""
  | .list l => .str (pyStr (.list l))
  | .dict d => .str (pyStr (.dict d))
  | .int n => .int n
  | .float f => .float f
  | .str s =>
      if digitDotCond (stripChars isPySpace s.data) then
        match parsePyFloatChars (stripChars isPySpace s.data) with
        | some q => .float (.finite q)
        | Option.none => .str s
      else .str (pyStripStr s)

/-- The worksheet, modelled as a total cell assignment (row, column, both
1-based); an untouched template cell keeps its previous value. -/
def Sheet : Type := Nat × Nat → PyVal

def setCell (s : Sheet) (r c : Nat) (v : PyVal) : Sheet :=
  fun p => if p = (r, c) then v else s p

/-- Python `dict.get(k)`: `None` when the key is absent. -/
def pyDictGet (d : List (String × PyVal)) (k : String) : PyVal :=
  match d.find? (fun kv => kv.1 = k) with
  | some kv => kv.2
  | Option.none => .none

/-- The seven fixed header cells: `A6`, `B15`–`B20`. -/
def writeHeaderCells (s : Sheet) (headers : List (String × PyVal)) : Sheet :=
  setCell (setCell (setCell (setCell (setCell (setCell (setCell s
    6 1 (safe_val (pyDictGet headers "Customer Name")))
    15 2 (safe_val (pyDictGet headers "Meter Type")))
    16 2 (safe_val (pyDictGet headers "Tariff Classification")))
    17 2 (safe_val (pyDictGet headers "Distribution Region")))
    18 2 (safe_val (pyDictGet headers "Site Address")))
    19 2 (safe_val (pyDictGet headers "NMI")))
    20 2 (safe_val (pyDictGet headers "Retailer"))

def isDictB : PyVal → Bool
  | .dict _ => true
  | _ => false

/-- The dynamic-rows loop of `write_usage_to_template`: four cells
(columns A, C, D, E) per record, starting at row `r`; a non-dict element
raises. -/
def writeRows : Sheet → Nat → List PyVal → Except String Sheet
  | s, _, [] => .ok s
  | s, r, line :: rest =>
      match line with
      | .dict d =>
          writeRows
            (setCell (setCell (setCell (setCell s
              r 1 (safe_val (pyDictGet d "Units")))
              r 3 (safe_val (pyDictGet d "Description")))
              r 4 (safe_val (pyDictGet d "Rate")))
              r 5 (safe_val (pyDictGet d "Discount")))
            (r + 1) rest
      | _ => .error ("Usage line must be dict, got: " ++ pyStr line)

/-- `write_usage_to_template`: header cells, then the usage rows starting
at the fixed row 34; returns the filled sheet and the output filename. -/
def write_usage_to_template (template : Sheet) (headers : List (String × PyVal))
    (usage : List PyVal) : Except String (Sheet × String) :=
  match writeRows (writeHeaderCells template headers) 34 usage with
  | .error e => .error e
  | .ok s => .ok (s, "filled_quote.xlsx")

/-- The rows loop raises exactly when some element is not a dict. -/
lemma writeRows_error_iff :
    ∀ (rows : List PyVal) (s : Sheet) (r : Nat),
      (∃ e, writeRows s r rows = .error e) ↔ ∃ l ∈ rows, isDictB l = false
  | [], s, r => by
      constructor
      · rintro ⟨e, h⟩
        exact absurd h (by simp [writeRows])
      · rintro ⟨l, hl, _⟩
        exact absurd hl (by simp)
  | line :: rest, s, r => by
      cases line with
      | dict d =>
          constructor
          · rintro ⟨e, h⟩
            obtain ⟨l, hl, hd⟩ := (writeRows_error_iff rest _ (r + 1)).mp ⟨e, h⟩
            exact ⟨l, List.mem_cons_of_mem _ hl, hd⟩
          · rintro ⟨l, hl, hd⟩
            rcases List.mem_cons.mp hl with rfl | h2
            · exact absurd hd (by simp [isDictB])
            · obtain ⟨e, he⟩ := (writeRows_error_iff rest
                (setCell (setCell (setCell (setCell s
                  r 1 (safe_val (pyDictGet d "Units")))
                  r 3 (safe_val (pyDictGet d "Description")))
                  r 4 (safe_val (pyDictGet d "Rate")))
                  r 5 (safe_val (pyDictGet d "Discount"))) (r + 1)).mpr ⟨l, h2, hd⟩
              exact ⟨e, he⟩
      | none => exact ⟨fun _ => ⟨_, List.mem_cons_self _ _, rfl⟩, fun _ => ⟨_, rfl⟩⟩
      | int n => exact ⟨fun _ => ⟨_, List.mem_cons_self _ _, rfl⟩, fun _ => ⟨_, rfl⟩⟩
      | float f => exact ⟨fun _ => ⟨_, List.mem_cons_self _ _, rfl⟩, fun _ => ⟨_, rfl⟩⟩
      | str s2 => exact ⟨fun _ => ⟨_, List.mem_cons_self _ _, rfl⟩, fun _ => ⟨_, rfl⟩⟩
      | list l2 => exact ⟨fun _ => ⟨_, List.mem_cons_self _ _, rfl⟩, fun _ => ⟨_, rfl⟩⟩

/-- Claim C9: the writer surfaces an error exactly when some element of the
usage-line list is not a dict; it never silently skips such an element. -/
theorem writer_error_iff_nondict (template : Sheet) (headers : List (String × PyVal))
    (usage : List PyVal) :
    (∃ e, write_usage_to_template template headers usage = .error e) ↔
      ∃ l ∈ usage, isDictB l = false := by
  unfold write_usage_to_template
  cases hw : writeRows (writeHeaderCells template headers) 34 usage with
  | error e =>
      constructor
      · intro _
        exact (writeRows_error_iff usage _ 34).mp ⟨e, hw⟩
      · intro _
        exact ⟨e, rfl⟩
  | ok s2 =>
      constructor
      · rintro ⟨e, h⟩
        exact absurd h (by simp)
      · intro hr
        obtain ⟨e, he⟩ := (writeRows_error_iff usage _ 34).mpr hr
        rw [hw] at he
        exact absurd he (by simp)

/-- The dict carried by one extracted record. -/
def usageToPyVal (r : UsageLine) : PyVal :=
  .dict [("Units", .str r.Units), ("Description", .str r.Description),
         ("Rate", .str r.Rate), ("Discount", .str r.Discount)]

lemma writeRows_ok_of_all_dict :
    ∀ (rows : List PyVal) (s : Sheet) (r : Nat),
      (∀ l ∈ rows, isDictB l = true) → ∃ out, writeRows s r rows = .ok out
  | [], s, r, _ => ⟨s, rfl⟩
  | line :: rest, s, r, h => by
      cases line with
      | dict d =>
          obtain ⟨out, hout⟩ := writeRows_ok_of_all_dict rest
            (setCell (setCell (setCell (setCell s
              r 1 (safe_val (pyDictGet d "Units")))
              r 3 (safe_val (pyDictGet d "Description")))
              r 4 (safe_val (pyDictGet d "Rate")))
              r 5 (safe_val (pyDictGet d "Discount"))) (r + 1)
            (fun l hl => h l (List.mem_cons_of_mem _ hl))
          exact ⟨out, hout⟩
      | none => exact absurd (h _ (List.mem_cons_self _ _)) (by simp [isDictB])
      | int n => exact absurd (h _ (List.mem_cons_self _ _)) (by simp [isDictB])
      | float f => exact absurd (h _ (List.mem_cons_self _ _)) (by simp [isDictB])
      | str s2 => exact absurd (h _ (List.mem_cons_self _ _)) (by simp [isDictB])
      | list l2 => exact absurd (h _ (List.mem_cons_self _ _)) (by simp [isDictB])

/-- Claim C10: every record extracted by `parse_usage_lines` is a dict with
exactly the four keys `Units`, `Description`, `Rate`, `Discount` in that
order, each bound to a string, and the writer's record-shape check can
never fire on an unedited extraction result. -/
theorem extraction_record_shape (text : String) (l : List UsageLine)
    (_h : parse_usage_lines text = .ok l) :
    (∀ r ∈ l, ∃ d, usageToPyVal r = PyVal.dict d ∧
        d.map Prod.fst = ["Units", "Description", "Rate", "Discount"] ∧
        ∀ kv ∈ d, ∃ sv, kv.2 = PyVal.str sv) ∧
    (∀ (template : Sheet) (headers : List (String × PyVal)),
        ∃ out, write_usage_to_template template headers (l.map usageToPyVal) =
          .ok out) := by
  constructor
  · intro r _
    refine ⟨_, rfl, rfl, ?_⟩
    intro kv hkv
    simp only [usageToPyVal, List.mem_cons, List.not_mem_nil, or_false] at hkv
    rcases hkv with rfl | rfl | rfl | rfl <;> exact ⟨_, rfl⟩
  · intro template headers
    have hall : ∀ v ∈ l.map usageToPyVal, isDictB v = true := by
      intro v hv
      obtain ⟨r, _, rfl⟩ := List.mem_map.mp hv
      rfl
    obtain ⟨out, hout⟩ := writeRows_ok_of_all_dict (l.map usageToPyVal)
      (writeHeaderCells template headers) 34 hall
    refine ⟨(out, "filled_quote.xlsx"), ?_⟩
    unfold write_usage_to_template
    rw [hout]

/-- Witness for C10 at a concrete extraction result. -/
theorem extraction_record_shape_witness :
    parse_usage_lines "supply 3" = .ok [⟨"", "supply", "3.0", ""⟩] ∧
    (∃ out, write_usage_to_template (fun _ => PyVal.none) []
        ([(⟨"", "supply", "3.0", ""⟩ : UsageLine)].map usageToPyVal) = .ok out) :=
  ⟨rfl, (extraction_record_shape "supply 3" [⟨"", "supply", "3.0", ""⟩] rfl).2
    (fun _ => PyVal.none) []⟩

/-- Frame property of the rows loop: cells outside the written row range or
outside columns A, C, D, E are untouched. -/
lemma writeRows_frame :
    ∀ (rows : List PyVal) (s : Sheet) (r : Nat) (out : Sheet),
      writeRows s r rows = .ok out →
      ∀ p : Nat × Nat,
        (p.1 < r ∨ r + rows.length ≤ p.1 ∨
          (p.2 ≠ 1 ∧ p.2 ≠ 3 ∧ p.2 ≠ 4 ∧ p.2 ≠ 5)) →
        out p = s p
  | [], s, r, out, h, p, _ => by
      unfold writeRows at h
      injection h with h2
      rw [← h2]
  | line :: rest, s, r, out, h, p, hp => by
      cases line with
      | dict d =>
          have hp1 : p ≠ (r, 1) := by
            intro hcon
            rcases hp with h1 | h1 | h1
            · rw [hcon] at h1; omega
            · rw [hcon] at h1; simp at h1
            · exact h1.1 (by rw [hcon])
          have hp3 : p ≠ (r, 3) := by
            intro hcon
            rcases hp with h1 | h1 | h1
            · rw [hcon] at h1; omega
            · rw [hcon] at h1; simp at h1
            · exact h1.2.1 (by rw [hcon])
          have hp4 : p ≠ (r, 4) := by
            intro hcon
            rcases hp with h1 | h1 | h1
            · rw [hcon] at h1; omega
            · rw [hcon] at h1; simp at h1
            · exact h1.2.2.1 (by rw [hcon])
          have hp5 : p ≠ (r, 5) := by
            intro hcon
            rcases hp with h1 | h1 | h1
            · rw [hcon] at h1; omega
            · rw [hcon] at h1; simp at h1
            · exact h1.2.2.2 (by rw [hcon])
          have hrec := writeRows_frame rest _ (r + 1) out h p (by
            rcases hp with h1 | h1 | h1
            · left; omega
            · right; left; simp at h1; omega
            · right; right; exact h1)
          rw [hrec]
          simp only [setCell, if_neg hp5, if_neg hp4, if_neg hp3, if_neg hp1]
      | none => exact absurd h (by simp [writeRows])
      | int n => exact absurd h (by simp [writeRows])
      | float f => exact absurd h (by simp [writeRows])
      | str s2 => exact absurd h (by simp [writeRows])
      | list l2 => exact absurd h (by simp [writeRows])

/-- The seven fixed header cells of the writer. -/
def headerCellsList : List (Nat × Nat) :=
  [(6, 1), (15, 2), (16, 2), (17, 2), (18, 2), (19, 2), (20, 2)]

lemma writeHeaderCells_frame (s : Sheet) (headers : List (String × PyVal))
    (p : Nat × Nat) (hp : p ∉ headerCellsList) :
    writeHeaderCells s headers p = s p := by
  simp only [headerCellsList, List.mem_cons, List.not_mem_nil, or_false,
    not_or] at hp
  obtain ⟨h1, h2, h3, h4, h5, h6, h7⟩ := hp
  simp only [writeHeaderCells, setCell, if_neg h7, if_neg h6, if_neg h5,
    if_neg h4, if_neg h3, if_neg h2, if_neg h1]

/-- The cells written by `write_usage_to_template` for `k` usage records:
the seven header cells plus columns A, C, D, E of rows `34 .. 34 + k - 1`. -/
def writtenCell (k : Nat) (p : Nat × Nat) : Prop :=
  p ∈ headerCellsList ∨
    (34 ≤ p.1 ∧ p.1 < 34 + k ∧ (p.2 = 1 ∨ p.2 = 3 ∨ p.2 = 4 ∨ p.2 = 5))

/-- Claim C4 (amended): the writer clears nothing; it writes exactly the
seven header cells and the four cells of each of the `k` record rows, and
every other cell — including usage rows beyond `start_row + k - 1` left
over from a previous longer run — retains its previous template value. -/
theorem writer_frame_condition (template : Sheet) (headers : List (String × PyVal))
    (usage : List PyVal) (out : Sheet) (name : String)
    (h : write_usage_to_template template headers usage = .ok (out, name))
    (p : Nat × Nat) (hp : ¬ writtenCell usage.length p) :
    out p = template p := by
  unfold write_usage_to_template at h
  cases hw : writeRows (writeHeaderCells template headers) 34 usage with
  | error e =>
      rw [hw] at h
      exact absurd h (by simp)
  | ok s2 =>
      rw [hw] at h
      dsimp only at h
      injection h with h2
      obtain ⟨hs, _⟩ := Prod.mk.inj h2
      rw [← hs]
      unfold writtenCell at hp
      rw [not_or] at hp
      obtain ⟨hphead, hprow⟩ := hp
      have hcond : p.1 < 34 ∨ 34 + usage.length ≤ p.1 ∨
          (p.2 ≠ 1 ∧ p.2 ≠ 3 ∧ p.2 ≠ 4 ∧ p.2 ≠ 5) := by
        by_cases hcol : p.2 = 1 ∨ p.2 = 3 ∨ p.2 = 4 ∨ p.2 = 5
        · have : ¬ (34 ≤ p.1 ∧ p.1 < 34 + usage.length) := by
            intro hcon
            exact hprow ⟨hcon.1, hcon.2, hcol⟩
          omega
        · right; right
          rw [not_or, not_or, not_or] at hcol
          exact ⟨hcol.1, hcol.2.1, hcol.2.2.1, hcol.2.2.2⟩
      rw [writeRows_frame usage _ 34 s2 hw p hcond]
      exact writeHeaderCells_frame template headers p hphead

/-- A template whose every cell holds a leftover value. -/
def c4Template : Sheet := fun _ => PyVal.str "stale"

/-- A single well-formed usage record for the writer. -/
def c4Record : PyVal :=
  PyVal.dict [("Units", PyVal.str "1"), ("Description", PyVal.str "Peak"),
              ("Rate", PyVal.str "0.5"), ("Discount", PyVal.str "")]

/-- The sheet produced by writing that single record. -/
def c4Out : Sheet :=
  setCell (setCell (setCell (setCell (writeHeaderCells c4Template [])
    34 1 (PyVal.float (.finite ⟨1, 0⟩)))
    34 3 (PyVal.str "Peak"))
    34 4 (PyVal.float (.finite ⟨5, 1⟩)))
    34 5 (PyVal.str "")

/-- Witness for (amended) C4: after writing one record over a fully
populated template, the cell in row 35 column A keeps its template value. -/
theorem writer_frame_condition_witness :
    write_usage_to_template c4Template [] [c4Record] =
      .ok (c4Out, "filled_quote.xlsx") ∧
    ¬ writtenCell 1 (35, 1) ∧
    c4Out (35, 1) = c4Template (35, 1) := by
  have hnw : ¬ writtenCell 1 (35, 1) := by
    intro hcon
    rcases hcon with hc | hc
    · simp [headerCellsList] at hc
    · omega
  exact ⟨rfl, hnw,
    writer_frame_condition c4Template [] [c4Record] c4Out "filled_quote.xlsx"
      rfl (35, 1) hnw⟩

/-- Counterexample to claim C4 as stated: the writer does not clear any
range before writing.  Writing one record (`k = 1`) over a template that
held values in later usage rows leaves row 35 (within any clear boundary
covering the maximum table size of 30) still holding its stale value
instead of being empty. -/
theorem writer_no_clear_counterexample :
    write_usage_to_template c4Template [] [c4Record] =
      .ok (c4Out, "filled_quote.xlsx") ∧
    c4Out (35, 1) = PyVal.str "stale" ∧
    PyVal.str "stale" ≠ PyVal.str "" := by
  refine ⟨rfl, rfl, ?_⟩
  intro hcon
  injection hcon with h2
  exact absurd h2 (by decide)

/-- Structure of `s.replace(".", "", 1)`: either there is no dot and the
string is unchanged, or the string splits at its first dot. -/
lemma removeFirstDot_split :
    ∀ t : List Char,
      (removeFirstDot t = t ∧ '.' ∉ t) ∨
      ∃ A B, t = A ++ '.' :: B ∧ removeFirstDot t = A ++ B ∧ '.' ∉ A
  | [] => Or.inl ⟨rfl, by simp⟩
  | c :: r => by
      by_cases hc : c = '.'
      · subst hc
        refine Or.inr ⟨[], r, by simp, ?_, by simp⟩
        unfold removeFirstDot
        rw [if_pos rfl, List.nil_append]
      · rcases removeFirstDot_split r with ⟨h1, h2⟩ | ⟨A, B, hAB, hrem, hA⟩
        · refine Or.inl ⟨?_, ?_⟩
          · unfold removeFirstDot
            rw [if_neg hc, h1]
          · intro hmem
            rcases List.mem_cons.mp hmem with hcc | hcc
            · exact hc hcc.symm
            · exact h2 hcc
        · refine Or.inr ⟨c :: A, B, by rw [hAB, List.cons_append], ?_, ?_⟩
          · unfold removeFirstDot
            rw [if_neg hc, hrem, List.cons_append]
          · intro hmem
            rcases List.mem_cons.mp hmem with hcc | hcc
            · exact hc hcc.symm
            · exact hA hcc

/-- If the `isdigit` test after removing one dot succeeds, the `float`
conversion of the writer succeeds. -/
lemma digitDotCond_parse (t : List Char) (h : digitDotCond t = true) :
    ∃ q, parsePyFloatChars t = some q := by
  unfold digitDotCond at h
  obtain ⟨hne, hdig⟩ := Bool.and_eq_true_iff.mp h
  have hdig2 : ∀ c ∈ removeFirstDot t, pyIsDigit c = true := List.all_eq_true.mp hdig
  rcases removeFirstDot_split t with ⟨h1, _⟩ | ⟨A, B, hAB, hrem, _⟩
  · -- no dot: all of t are digits, t nonempty
    have htd : ∀ c ∈ t, pyIsDigit c = true := by
      intro c hc
      exact hdig2 c (by rw [h1]; exact hc)
    have htne : t ≠ [] := by
      intro hcon
      rw [hcon, show removeFirstDot [] = [] from rfl] at hne
      exact absurd hne (by simp)
    have hnospace : stripChars isPySpace t = t :=
      stripChars_of_all_false (fun c hc => digit_not_space (htd c hc))
    have htake : t.takeWhile (fun c => c != '.') = t :=
      List.takeWhile_eq_self_iff.mpr (fun c hc => digit_ne_dot (htd c hc))
    have hdrop : t.dropWhile (fun c => c != '.') = [] :=
      List.dropWhile_eq_nil_iff.mpr (fun c hc => digit_ne_dot (htd c hc))
    refine ⟨⟨ofDecChars t, 0⟩, ?_⟩
    unfold parsePyFloatChars
    rw [hnospace, htake, hdrop]
    unfold parsePyFloatSplit
    rw [if_pos ?cond]
    case cond =>
      rw [List.all_eq_true.mpr htd]
      cases hc : t with
      | nil => exact absurd hc htne
      | cons x xs => rfl
  · -- split at the first dot
    have hAdig : ∀ c ∈ A, pyIsDigit c = true := by
      intro c hc
      exact hdig2 c (by rw [hrem]; exact List.mem_append.mpr (Or.inl hc))
    have hBdig : ∀ c ∈ B, pyIsDigit c = true := by
      intro c hc
      exact hdig2 c (by rw [hrem]; exact List.mem_append.mpr (Or.inr hc))
    have hnospace : stripChars isPySpace t = t := by
      apply stripChars_of_all_false
      intro c hc
      rw [hAB] at hc
      rcases List.mem_append.mp hc with hh | hh
      · exact digit_not_space (hAdig c hh)
      · rcases List.mem_cons.mp hh with rfl | hh2
        · rfl
        · exact digit_not_space (hBdig c hh2)
    have hABne : A ++ B ≠ [] := by
      intro hcon
      rw [hrem, hcon] at hne
      exact absurd hne (by simp)
    have hAdot : ∀ c ∈ A, (c != '.') = true :=
      fun c hc => digit_ne_dot (hAdig c hc)
    refine ⟨⟨ofDecChars A * 10 ^ B.length + ofDecChars B, B.length⟩, ?_⟩
    unfold parsePyFloatChars
    rw [hnospace, hAB]
    rw [takeWhile_ne_dot_append _ _ hAdot, dropWhile_ne_dot_append _ _ hAdot]
    unfold parsePyFloatSplit
    dsimp only
    rw [if_pos rfl]
    rw [if_pos ?cond2]
    case cond2 =>
      rw [List.all_eq_true.mpr hAdig, List.all_eq_true.mpr hBdig]
      by_cases hAe : A = []
      · have hBne : B ≠ [] := by
          intro hcon
          exact hABne (by rw [hAe, hcon]; rfl)
        cases hB : B with
        | nil => exact absurd hB hBne
        | cons x xs => rw [hAe]; rfl
      · cases hA2 : A with
        | nil => exact absurd hA2 hAe
        | cons x xs => rfl

/-- Counterexample to claim C7 as stated: `safe_val` passes a NaN float
through unchanged (the `isinstance(v, (int, float))` branch returns `v`),
so NaN is written as that float value, not as empty text. -/
theorem safe_val_nan_counterexample :
    safe_val (PyVal.float PyFloat.nan) = PyVal.float PyFloat.nan ∧
    PyVal.float PyFloat.nan ≠ PyVal.str "" :=
  ⟨rfl, fun h => PyVal.noConfusion h⟩

/-- Claim C7 (amended): `safe_val` writes `None` as empty text; passes
`int` and `float` values (including NaN and the infinities) through
unchanged; flattens lists and dicts to their textual representation; and
writes a string as a number exactly when, after stripping, deleting at most
one dot leaves a non-empty digit string — otherwise as the stripped text. -/
theorem safe_val_characterization :
    (safe_val PyVal.none = PyVal.str "") ∧
    (∀ n : Int, safe_val (PyVal.int n) = PyVal.int n) ∧
    (∀ f : PyFloat, safe_val (PyVal.float f) = PyVal.float f) ∧
    (∀ l : List PyVal, safe_val (PyVal.list l) = PyVal.str (pyStr (PyVal.list l))) ∧
    (∀ d : List (String × PyVal),
        safe_val (PyVal.dict d) = PyVal.str (pyStr (PyVal.dict d))) ∧
    (∀ s : String, digitDotCond (stripChars isPySpace s.data) = true →
        ∃ q, parsePyFloatChars (stripChars isPySpace s.data) = some q ∧
          safe_val (PyVal.str s) = PyVal.float (PyFloat.finite q)) ∧
    (∀ s : String, digitDotCond (stripChars isPySpace s.data) = false →
        safe_val (PyVal.str s) = PyVal.str (pyStripStr s)) := by
  refine ⟨rfl, fun _ => rfl, fun _ => rfl, fun _ => rfl, fun _ => rfl, ?_, ?_⟩
  · intro s hcond
    obtain ⟨q, hq⟩ := digitDotCond_parse _ hcond
    refine ⟨q, hq, ?_⟩
    unfold safe_val
    dsimp only
    rw [if_pos hcond, hq]
  · intro s hcond
    unfold safe_val
    dsimp only
    rw [if_neg (by rw [hcond]; exact Bool.noConfusion)]

/-- Witness for (amended) C7 at concrete values. -/
theorem safe_val_characterization_witness :
    (∃ q, parsePyFloatChars (stripChars isPySpace (" 12.5 " : String).data) = some q ∧
        safe_val (PyVal.str " 12.5 ") = PyVal.float (PyFloat.finite q)) ∧
    safe_val (PyVal.str "Peak") = PyVal.str (pyStripStr "Peak") ∧
    safe_val PyVal.none = PyVal.str "" :=
  ⟨safe_val_characterization.2.2.2.2.2.1 " 12.5 " rfl,
   safe_val_characterization.2.2.2.2.2.2 "Peak" rfl,
   safe_val_characterization.1⟩
